import Mathlib

/-!
Verification of the Supernan AI dubbing pipeline (Kannada → Hindi).

This file gives a shallow embedding of the pure computational core of the
pipeline sources — `pipeline/normalize.py`, `pipeline/transcribe.py`,
`pipeline/translate.py`, `pipeline/extract.py` and `dub_video.py` — and
proves or refutes the specified properties about them.

Python strings are modelled as Lean `String` (a list of Unicode scalar
values, matching Python's code-point view of `str`); Python floats that
carry timestamps are modelled as rationals `ℚ`; the ML translation engine
(tokenizer + `model.generate` + decoder) is an abstract parameter
`String → String → String → String`, and engine invocations are made
observable as an explicit call trace.
-/

/-! ## Models of the Python `str` primitives used by the pipeline -/

/-- Whitespace recognised by Python's `str.strip()` (the ASCII part, which
is all the pipeline's data ever carries). -/
def isPySpace (ch : Char) : Bool :=
  ch = ' ' || ch = '\t' || ch = '\n' || ch = '\r' || ch = '\x0b' || ch = '\x0c'

/-- `str.strip()` on a list of characters: drop whitespace from both ends. -/
def pyStripL (l : List Char) : List Char :=
  ((l.dropWhile isPySpace).reverse.dropWhile isPySpace).reverse

/-- Python `str.strip()`. -/
def pyStrip (s : String) : String :=
  String.mk (pyStripL s.toList)

/-- Python `str.lower()`, character-wise (exact on ASCII; Kannada has no
case, so `lower` is the identity there, as in Python). -/
def lowerS (s : String) : String :=
  String.mk (s.toList.map Char.toLower)

/-- Boolean list-prefix test (used to model substring search). -/
def isPrefixL : List Char → List Char → Bool
  | [], _ => true
  | _ :: _, [] => false
  | a :: as, b :: bs => a = b && isPrefixL as bs

/-- Python's `needle in haystack` substring test, on character lists. -/
def hasSubstrL : List Char → List Char → Bool
  | [], c => isPrefixL c []
  | a :: rest, c => isPrefixL c (a :: rest) || hasSubstrL rest c

/-- Python `str.replace(old, new)` for a nonempty pattern: a single
left-to-right scan replacing non-overlapping occurrences.  The fuel
argument (instantiated with the text length, which bounds the number of
scan steps since every step consumes at least one character) makes the
recursion structural so that the kernel can evaluate it. -/
def pyReplaceFuel : Nat → List Char → List Char → List Char → List Char
  | 0, t, _, _ => t
  | _ + 1, [], _, _ => []
  | fuel + 1, a :: rest, c, s =>
    if !c.isEmpty && isPrefixL c (a :: rest) then
      s ++ pyReplaceFuel fuel ((a :: rest).drop c.length) c s
    else
      a :: pyReplaceFuel fuel rest c s

/-- Python `str.replace(old, new)` on character lists (nonempty pattern). -/
def pyReplaceL (t c s : List Char) : List Char :=
  pyReplaceFuel t.length t c s

/-- The maximal untouched chunks of the same left-to-right scan that
`pyReplaceFuel` performs: the pieces of the text lying strictly between
the matched occurrences of the pattern (same fuel discipline). -/
def replChunksFuel : Nat → List Char → List Char → List (List Char)
  | 0, t, _ => [t]
  | _ + 1, [], _ => [[]]
  | fuel + 1, a :: rest, c =>
    if !c.isEmpty && isPrefixL c (a :: rest) then
      [] :: replChunksFuel fuel ((a :: rest).drop c.length) c
    else
      match replChunksFuel fuel rest c with
      | [] => [[a]]
      | u :: us => (a :: u) :: us

/-- Untouched-chunk decomposition of a text with respect to a pattern. -/
def replChunksL (t c : List Char) : List (List Char) :=
  replChunksFuel t.length t c

/-! ## `pipeline/normalize.py` -/

/-- The replacement table `_REPLACEMENTS` of `pipeline/normalize.py`,
verbatim: `(colloquial_form, standard_form)` pairs, in source order. -/
def _REPLACEMENTS : List (String × String) := [
  ("ಮೊಂಚಿನೆ", "ಮೊದಲು"),
  ("ತುಮ್ಬ",   "ತುಂಬ"),
  ("ಸೊಲ್ಪ",   "ಸ್ವಲ್ಪ"),
  ("ಯೂಸ್",    "ಬಳಸಿ"),
  ("ಇಸ್ಟ್",   "ಇಷ್ಟ"),
  ("ನಿವು",    "ನೀವು"),
  ("ಹೇಂಗೆ",   "ಹೇಗೆ"),
  ("ಎಂತ",     "ಏನು"),
  ("ಅದ್ಕೆ",   "ಅದಕ್ಕೆ"),
  ("ಇದ್ಕೆ",   "ಇದಕ್ಕೆ"),
  ("ಕೊಡ್ರಿ",  "ಕೊಡಿ"),
  ("ಮಾಡ್ಕೋ",  "ಮಾಡಿಕೊ"),
  ("ಹೋಗ್ಬೇಕು","ಹೋಗಬೇಕು"),
  ("ಬರ್ತಾ",   "ಬರುತ್ತಾ"),
  ("ಮಾಡ್ತೀನಿ","ಮಾಡುತ್ತೇನೆ"),
  ("ಇಟ್ಕೊ",   "ಇಟ್ಟುಕೊ"),
  ("ಗೊತ್ತಿಲ್ಲ","ಗೊತ್ತಿಲ್ಲ"),
  ("ನಮ್ಮ",    "ನಮ್ಮ"),
  ("ಆಯ್ತು",   "ಆಯಿತು"),
  ("ಮಾಡ್ಬೇಡ", "ಮಾಡಬೇಡ"),
  ("ನೋಡ್ತಾ",  "ನೋಡುತ್ತಾ")]

/-- The loop body of `normalize_kannada`: for each `(colloquial, standard)`
rule in order, skip identity rules (`if colloquial == standard: continue`),
and otherwise replace all occurrences when the trigger is present
(`if colloquial in normalized: normalized = normalized.replace(...)`). -/
def applyRules : List (List Char × List Char) → List Char → List Char
  | [], t => t
  | (c, s) :: rules, t =>
    applyRules rules
      (if c = s then t else if hasSubstrL t c then pyReplaceL t c s else t)

/-- `normalize_kannada` generalised over the rule table (the source's
algorithm, with the fixed `_REPLACEMENTS` abstracted into a parameter). -/
def normalizeWith (table : List (String × String)) (text : String) : String :=
  String.mk (applyRules (table.map fun p => (p.1.toList, p.2.toList)) text.toList)

/-- `normalize_kannada` of `pipeline/normalize.py`: the prioritized
deterministic replacement pass over `_REPLACEMENTS`. -/
def normalize_kannada (text : String) : String :=
  normalizeWith _REPLACEMENTS text

/-- The claim's well-formedness condition on a rule table, following the
spec's words: "no rule's output string contains another rule's input
string". -/
def wellFormedTable (table : List (String × String)) : Bool :=
  table.enum.all fun pj =>
    table.enum.all fun pi =>
      pi.1 == pj.1 || !(hasSubstrL pj.2.2.toList pi.2.1.toList)

/-! ## `pipeline/transcribe.py` -/

/-- The `_KNOWN_HALLUCINATIONS` set of `pipeline/transcribe.py`, verbatim
(a Python `set` of strings, modelled as a list; only membership is used). -/
def _KNOWN_HALLUCINATIONS : List String := [
  "...",
  "ಧನ್ಯವಾದ",
  "ಧನ್ಯವಾದಗಳು",
  "ಸಂಗೀತ",
  "[music]",
  "[silence]",
  "[applause]"]

/-- `_is_valid_segment` of `pipeline/transcribe.py`: the Segment Quality
Gate.  Gates (in source order): minimum duration 0.5 s, minimum stripped
length 3, at least 5 distinct characters (`len(set(stripped))`), and the
lowercased stripped text must not be a known hallucination. -/
def _is_valid_segment (text : String) (duration : ℚ) : Bool :=
  if duration < 1/2 then false
  else if (pyStrip text).length < 3 then false
  else if (pyStrip text).toList.eraseDups.length < 5 then false
  else if lowerS (pyStrip text) ∈ _KNOWN_HALLUCINATIONS.map lowerS then false
  else true

/-! ## `pipeline/translate.py` -/

/-- NLLB-200 language code `kan_Knda` (`_LANG_KN`). -/
def _LANG_KN : String := "kan_Knda"

/-- NLLB-200 language code `eng_Latn` (`_LANG_EN`). -/
def _LANG_EN : String := "eng_Latn"

/-- NLLB-200 language code `hin_Deva` (`_LANG_HI`). -/
def _LANG_HI : String := "hin_Deva"

/-- One observable invocation of the translation engine (the
tokenize / `model.generate` / decode composite of `_translate`): the text
handed to the tokenizer together with the source and target language
codes. -/
structure EngineCall where
  text : String
  src_lang : String
  tgt_lang : String
deriving DecidableEq, Repr

namespace NLLBTranslator

/-- `NLLBTranslator._translate`: translate a single string between any
language pair.  Empty or whitespace-only text short-circuits to `""`
without touching the engine (`if not text.strip(): return ""`); otherwise
the engine is invoked once and its decoded output is stripped
(`translated.strip()`).  The abstract `engine` parameter stands for the
tokenizer + `model.generate` + `batch_decode` composite; the second
component of the result is the trace of engine invocations performed. -/
def _translate (engine : String → String → String → String)
    (text src_lang tgt_lang : String) : String × List EngineCall :=
  if pyStrip text = "" then ("", [])
  else (pyStrip (engine text src_lang tgt_lang),
        [{ text := text, src_lang := src_lang, tgt_lang := tgt_lang }])

/-- `NLLBTranslator.translate`: Kannada → Hindi through the English pivot.
Empty or whitespace-only text short-circuits to `""`; otherwise two
single-hop `_translate` calls are composed:
Kannada → English, then English → Hindi. -/
def translate (engine : String → String → String → String)
    (text : String) : String × List EngineCall :=
  if pyStrip text = "" then ("", [])
  else
    let english := _translate engine text _LANG_KN _LANG_EN
    let hindi := _translate engine english.1 _LANG_EN _LANG_HI
    (hindi.1, english.2 ++ hindi.2)

end NLLBTranslator

/-- Round-half-to-even on a rational, the rounding mode of Python's
built-in `round`. -/
def roundHalfEven (x : ℚ) : ℤ :=
  if x - ⌊x⌋ < 1/2 then ⌊x⌋
  else if 1/2 < x - ⌊x⌋ then ⌊x⌋ + 1
  else if ⌊x⌋ % 2 = 0 then ⌊x⌋ else ⌊x⌋ + 1

/-- Python `round(x, 3)` on the exact rational value of a timestamp:
round-half-even at the third decimal place. -/
def pyRound3 (x : ℚ) : ℚ :=
  (roundHalfEven (x * 1000) : ℚ) / 1000

/-- One segment of the input transcript JSON
(`{"start": ..., "end": ..., "text": ...}`). -/
structure RawSegment where
  start : ℚ
  «end» : ℚ
  text : String
deriving DecidableEq

/-- One segment of the output translation JSON produced by
`translate_transcript`. -/
structure TranslatedSegment where
  start : ℚ
  «end» : ℚ
  text_kn_raw : String
  text_kn_clean : String
  text_hi : String
deriving DecidableEq

/-- The per-segment loop of `translate_transcript` in
`pipeline/translate.py`: for each input segment, strip the transcript
text, normalize it, translate the normalized text (pivot through English),
and emit a segment carrying `round(start, 3)`, `round(end, 3)`, the
stripped raw text, the normalized text and the Hindi text.  The JSON
(de)serialization and the one-time model load are outside the model; the
loaded model is the abstract `engine`. -/
def translate_transcript (engine : String → String → String → String)
    (segments : List RawSegment) : List TranslatedSegment :=
  segments.map fun seg =>
    let text_kn_raw := pyStrip seg.text
    let text_kn_clean := normalize_kannada text_kn_raw
    let text_hi := (NLLBTranslator.translate engine text_kn_clean).1
    { start := pyRound3 seg.start
      «end» := pyRound3 seg.«end»
      text_kn_raw := text_kn_raw
      text_kn_clean := text_kn_clean
      text_hi := text_hi }

/-! ## `pipeline/extract.py` -/

/-- Validation failure of `extract_segment`: the `ValueError` raised when
`end_time - start_time <= 0` (its message interpolates the two times). -/
inductive ExtractError where
  | invalidRange (start_time end_time : ℚ)
deriving DecidableEq

/-- Observable filesystem / process side effects of `extract_segment`, in
program order. -/
inductive Effect where
  /-- `Path(output_path).parent.mkdir(parents=True, exist_ok=True)`. -/
  | mkdirParentOf (output_path : String)
  /-- `_run_ffmpeg([...])`: the media-cutting tool invocation, carrying
  the input path, output path, seek position and duration it is given. -/
  | runFfmpeg (input_path output_path : String) (start_time duration : ℚ)
deriving DecidableEq

/-- `extract_segment` of `pipeline/extract.py`: validates the time range
first (`duration <= 0` raises `ValueError` immediately), and only then
creates the output directory and invokes ffmpeg.  Returns the written
path and the ordered list of side effects, or the raised error. -/
def extract_segment (input_path output_path : String)
    (start_time end_time : ℚ) : Except ExtractError (String × List Effect) :=
  let duration := end_time - start_time
  if duration ≤ 0 then
    .error (.invalidRange start_time end_time)
  else
    .ok (output_path,
      [.mkdirParentOf output_path,
       .runFfmpeg input_path output_path start_time duration])

/-- On-disk state: the directories known to exist and the files present. -/
structure DiskState where
  dirs : List String
  files : List String
deriving DecidableEq

/-- Interpretation of one side effect on the disk state. -/
def applyEffect (st : DiskState) : Effect → DiskState
  | .mkdirParentOf p => { st with dirs := p :: st.dirs }
  | .runFfmpeg _ out _ _ => { st with files := out :: st.files }

/-- Running `extract_segment` against a disk state: on success the
effects are applied in order; a raised `ValueError` leaves the disk
untouched (the exception propagates before any effect happens). -/
def run_extract (st : DiskState) (input_path output_path : String)
    (start_time end_time : ℚ) : DiskState × Except ExtractError String :=
  match extract_segment input_path output_path start_time end_time with
  | .error e => (st, .error e)
  | .ok (p, effs) => (effs.foldl applyEffect st, .ok p)

/-! ## `dub_video.py` -/

/-- The four artifacts `run_pipeline` declares under its output directory:
`clip.mp4`, `audio.wav`, `transcript.json`, `translated.json`. -/
inductive Artifact where
  | clip
  | audio
  | transcript
  | translated
deriving DecidableEq, Repr

/-- The four pipeline stages `run_pipeline` can invoke. -/
inductive StageCall where
  | extractSegment
  | extractAudio
  | transcribeAudio
  | translateTranscript
deriving DecidableEq, Repr

/-- The output artifact each stage writes. -/
def stageArtifact : StageCall → Artifact
  | .extractSegment => .clip
  | .extractAudio => .audio
  | .transcribeAudio => .transcript
  | .translateTranscript => .translated

/-- Which artifacts are present in the output directory. -/
def ArtifactState : Type := Artifact → Bool

/-- Invoking one stage writes its declared artifact. -/
def runStage (fs : ArtifactState) (st : StageCall) : ArtifactState :=
  fun a => if a = stageArtifact st then true else fs a

/-- `run_pipeline` of `dub_video.py`, as a transition on the artifact
state together with the trace of stage invocations: STEP 1 through STEP 4
are called in sequence, each unconditionally — the function contains no
test of whether an output artifact already exists and no force-recompute
flag. -/
def run_pipeline (fs : ArtifactState) : ArtifactState × List StageCall :=
  let fs1 := runStage fs .extractSegment
  let fs2 := runStage fs1 .extractAudio
  let fs3 := runStage fs2 .transcribeAudio
  let fs4 := runStage fs3 .translateTranscript
  (fs4, [.extractSegment, .extractAudio, .transcribeAudio, .translateTranscript])

/-! ## Claim C1 — the Segment Quality Gate -/

/-- C1: `_is_valid_segment` keeps a segment iff all four rules pass
(duration ≥ 0.5 s, stripped length ≥ 3, at least 5 distinct characters,
lowercased stripped text not a known hallucination); moreover any
duration < 0.5 is rejected regardless of the text, and any text whose
stripped form is in the hallucination set is rejected regardless of the
duration. -/
theorem quality_gate_spec (text : String) (duration : ℚ) :
    (_is_valid_segment text duration = true ↔
      (1/2 ≤ duration ∧ 3 ≤ (pyStrip text).length ∧
       5 ≤ (pyStrip text).toList.eraseDups.length ∧
       lowerS (pyStrip text) ∉ _KNOWN_HALLUCINATIONS.map lowerS)) ∧
    (duration < 1/2 → _is_valid_segment text duration = false) ∧
    (pyStrip text ∈ _KNOWN_HALLUCINATIONS → _is_valid_segment text duration = false) := by
  refine ⟨?_, ?_, ?_⟩
  · unfold _is_valid_segment
    split_ifs with h1 h2 h3 h4
    · simp only [Bool.false_eq_true, false_iff]
      intro h
      exact absurd h.1 (not_le.mpr h1)
    · simp only [Bool.false_eq_true, false_iff]
      intro h
      exact absurd h.2.1 (not_le.mpr h2)
    · simp only [Bool.false_eq_true, false_iff]
      intro h
      exact absurd h.2.2.1 (not_le.mpr h3)
    · simp only [Bool.false_eq_true, false_iff]
      intro h
      exact h.2.2.2 h4
    · simp only [true_iff]
      exact ⟨not_lt.mp h1, not_lt.mp h2, not_lt.mp h3, h4⟩
  · intro hd
    unfold _is_valid_segment
    rw [if_pos hd]
  · intro hmem
    have hm : lowerS (pyStrip text) ∈ _KNOWN_HALLUCINATIONS.map lowerS :=
      List.mem_map_of_mem lowerS hmem
    unfold _is_valid_segment
    split_ifs <;> rfl

/-- C1 witness: on the hallucination string `"ಧನ್ಯವಾದ"` (duration 5 s,
which passes the duration, length and uniqueness rules), the gate
rejects. -/
theorem quality_gate_spec_witness :
    pyStrip "ಧನ್ಯವಾದ" ∈ _KNOWN_HALLUCINATIONS ∧
    _is_valid_segment "ಧನ್ಯವಾದ" 5 = false :=
  ⟨by decide, (quality_gate_spec "ಧನ್ಯವಾದ" 5).2.2 (by decide)⟩

/-! ## Claim C4 — pivot strategy is a composition of two hops -/

/-- C4: for every engine and every input string, the pivot translation
`NLLBTranslator.translate` returns exactly
`_translate(_translate(x, kan_Knda, eng_Latn), eng_Latn, hin_Deva)` —
the composition of two single-hop direct translations. -/
theorem pivot_is_composition_of_hops
    (engine : String → String → String → String) (text : String) :
    (NLLBTranslator.translate engine text).1 =
      (NLLBTranslator._translate engine
        (NLLBTranslator._translate engine text _LANG_KN _LANG_EN).1
        _LANG_EN _LANG_HI).1 := by
  unfold NLLBTranslator.translate NLLBTranslator._translate
  by_cases h : pyStrip text = "" <;> simp [h, show pyStrip "" = "" from rfl]

/-! ## Claim C6 — empty normalized text short-circuits -/

/-- C6: when the normalized source text strips to the empty string, the
translation step returns the empty string and performs no engine
invocation at all (the call trace is empty — neither hop runs). -/
theorem empty_text_short_circuits
    (engine : String → String → String → String) (text : String)
    (h : pyStrip text = "") :
    NLLBTranslator.translate engine text = ("", ([] : List EngineCall)) := by
  unfold NLLBTranslator.translate
  rw [if_pos h]

/-- C6 witness: whitespace-only text yields `""` with an empty engine
call trace, for a concrete engine that would return non-empty output if
it were ever consulted. -/
theorem empty_text_short_circuits_witness :
    pyStrip "   " = "" ∧
    NLLBTranslator.translate (fun _ _ _ => "nonempty") "   " =
      ("", ([] : List EngineCall)) :=
  ⟨by decide, empty_text_short_circuits (fun _ _ _ => "nonempty") "   " (by decide)⟩

/-! ## Claim C5 — the orchestrator has no warm-resume -/

/-- C5 counterexample: starting from an empty output directory, one run
of `run_pipeline` leaves all four artifacts present, yet a second run
still performs four stage invocations — not zero.  The spec's warm-resume
property fails. -/
theorem orchestrator_reinvokes_despite_artifacts :
    (∀ a : Artifact, (run_pipeline (fun _ => false)).1 a = true) ∧
    (run_pipeline (run_pipeline (fun _ => false)).1).2.length = 4 := by
  constructor
  · intro a
    cases a <;> rfl
  · rfl

/-- C5 amended: `run_pipeline` invokes all four stages unconditionally,
in order, on every run — it never tests whether a declared output
artifact already exists (there is no warm-resume and no force-recompute
policy in the code). -/
theorem orchestrator_invokes_all_stages_unconditionally (fs : ArtifactState) :
    (run_pipeline fs).2 =
      [.extractSegment, .extractAudio, .transcribeAudio, .translateTranscript] :=
  rfl

/-! ## Claim C8 — invalid time range rejected before any effect -/

/-- C8: whenever `end_time ≤ start_time`, `extract_segment` raises the
input error immediately: ffmpeg is never invoked, no directory or file is
created, and the on-disk state is unchanged. -/
theorem invalid_range_rejected_without_effects (st : DiskState)
    (input_path output_path : String) (start_time end_time : ℚ)
    (h : end_time ≤ start_time) :
    extract_segment input_path output_path start_time end_time =
      .error (.invalidRange start_time end_time) ∧
    run_extract st input_path output_path start_time end_time =
      (st, .error (.invalidRange start_time end_time)) := by
  have hd : end_time - start_time ≤ 0 := sub_nonpos.mpr h
  have he : extract_segment input_path output_path start_time end_time =
      .error (.invalidRange start_time end_time) := by
    unfold extract_segment
    rw [if_pos hd]
  refine ⟨he, ?_⟩
  unfold run_extract
  rw [he]

/-- C8 witness: a concrete invalid range (`start = 2 s`, `end = 1 s`)
against a concrete disk state: the error is raised and the disk state
comes back unchanged. -/
theorem invalid_range_rejected_witness :
    run_extract ⟨["outputs"], ["outputs/clip.mp4"]⟩
        "massage2.mp4" "outputs/clip.mp4" 2 1 =
      (⟨["outputs"], ["outputs/clip.mp4"]⟩, .error (.invalidRange 2 1)) :=
  (invalid_range_rejected_without_effects ⟨["outputs"], ["outputs/clip.mp4"]⟩
    "massage2.mp4" "outputs/clip.mp4" 2 1 one_le_two).2

/-! ## Claim C2 — segment structure through `translate_transcript` -/

/-- Rounding at the third decimal place is the identity on values that
already are whole thousandths. -/
theorem pyRound3_eq_self_of_thousandths {x : ℚ} (h : (x * 1000).den = 1) :
    pyRound3 x = x := by
  have hx : ((x * 1000).num : ℚ) = x * 1000 := (Rat.den_eq_one_iff (x * 1000)).mp h
  have hfloor : ⌊x * 1000⌋ = (x * 1000).num := by
    rw [← hx]
    exact Int.floor_intCast _
  unfold pyRound3 roundHalfEven
  rw [hfloor, hx]
  rw [if_pos (by norm_num)]
  rw [hx]
  field_simp

/-- C2 counterexample: a transcript whose span carries more than three
decimals is altered by `translate_transcript` — with input start time
`0.12345` the output start time is `0.123`, so the output `(start, end)`
sequence differs from the input sequence.  Span preservation as stated
fails. -/
theorem translate_span_changed_counterexample :
    (translate_transcript (fun _ _ _ => "")
        [{ start := 12345/100000, «end» := 1, text := "ಹಾಯ್" }]).map
        (fun s => (s.start, s.«end»)) ≠
      [({ start := 12345/100000, «end» := 1, text := "ಹಾಯ್" } : RawSegment)].map
        (fun s => (s.start, s.«end»)) := by
  have hf : (⌊(12345 : ℚ)/100000 * 1000⌋ : ℤ) = 123 := by
    norm_num [Int.floor_eq_iff]
  intro hEq
  have h1 : pyRound3 (12345/100000) = 12345/100000 := by
    have := congrArg (fun l => (l.headD ((0 : ℚ), (0 : ℚ))).1) hEq
    simpa [translate_transcript] using this
  rw [pyRound3, roundHalfEven, hf] at h1
  norm_num at h1

/-- C2 amended: `translate_transcript` never drops or reorders a segment
— the output has exactly as many segments as the input, in order — and
each output span is the input span rounded to three decimal places
(Python's `round(x, 3)`); in particular the span is copied unchanged
whenever the input times already are whole thousandths of a second (as
all transcripts written by the transcription stage are, since it rounds
the same way). -/
theorem translate_preserves_segment_structure
    (engine : String → String → String → String) (segments : List RawSegment) :
    (translate_transcript engine segments).length = segments.length ∧
    (translate_transcript engine segments).map (fun s => (s.start, s.«end»)) =
      segments.map (fun s => (pyRound3 s.start, pyRound3 s.«end»)) ∧
    (∀ s ∈ segments, (s.start * 1000).den = 1 → (s.«end» * 1000).den = 1 →
      (pyRound3 s.start, pyRound3 s.«end») = (s.start, s.«end»)) := by
  refine ⟨by simp [translate_transcript], ?_, ?_⟩
  · simp only [translate_transcript, List.map_map]
    rfl
  · intro s _ h1 h2
    rw [pyRound3_eq_self_of_thousandths h1, pyRound3_eq_self_of_thousandths h2]

/-- C2 witness: a concrete one-segment transcript with three-decimal
times `(0.5, 3)` passes through with its span intact. -/
theorem translate_preserves_segment_structure_witness :
    (((1 : ℚ)/2) * 1000).den = 1 ∧
    (translate_transcript (fun _ _ _ => "")
        [{ start := 1/2, «end» := 3, text := "ಹಾಯ್" }]).map
        (fun s => (s.start, s.«end»)) = [((1 : ℚ)/2, (3 : ℚ))] := by
  refine ⟨by norm_num, ?_⟩
  have h := translate_preserves_segment_structure (fun _ _ _ => "")
    [{ start := 1/2, «end» := 3, text := "ಹಾಯ್" }]
  have hp := h.2.2 { start := 1/2, «end» := 3, text := "ಹಾಯ್" }
    (List.mem_singleton.mpr rfl) (by norm_num) (by norm_num)
  rw [h.2.1]
  simpa using hp

/-! ## Claim C3 — idempotence of the normalizer -/

/-- A normalization pass over a text containing no active trigger leaves
it unchanged (each rule either is an identity rule and is skipped, or its
`colloquial in normalized` guard fails). -/
theorem applyRules_id {rules : List (List Char × List Char)} {t : List Char}
    (h : ∀ p ∈ rules, p.1 ≠ p.2 → hasSubstrL t p.1 = false) :
    applyRules rules t = t := by
  induction rules with
  | nil => rfl
  | cons p rules ih =>
    obtain ⟨c, s⟩ := p
    simp only [applyRules]
    by_cases hcs : c = s
    · rw [if_pos hcs]
      exact ih fun q hq => h q (List.mem_cons_of_mem _ hq)
    · have hns : hasSubstrL t c = false := h (c, s) (List.mem_cons_self _ _) hcs
      rw [if_neg hcs, hns]
      simp only [Bool.false_eq_true, if_false]
      exact ih fun q hq => h q (List.mem_cons_of_mem _ hq)

/-- C3 counterexample: the shipped `_REPLACEMENTS` table is well-formed
in exactly the claim's sense (no rule's output contains another rule's
input), and yet the normalizer is not idempotent on it: on the input
`"ಮಾಡ್ಕೋಡ್ರಿ"` the rule `ಮಾಡ್ಕೋ → ಮಾಡಿಕೊ` rewrites the text to
`"ಮಾಡಿಕೊಡ್ರಿ"`, creating at the boundary of its output a fresh
occurrence of the earlier rule's trigger `ಕೊಡ್ರಿ`, which only a second
pass rewrites (to `"ಮಾಡಿಕೊಡಿ"`). -/
theorem normalize_not_idempotent_on_wellformed_table :
    wellFormedTable _REPLACEMENTS = true ∧
    normalize_kannada "ಮಾಡ್ಕೋಡ್ರಿ" = "ಮಾಡಿಕೊಡ್ರಿ" ∧
    normalize_kannada (normalize_kannada "ಮಾಡ್ಕೋಡ್ರಿ") ≠
      normalize_kannada "ಮಾಡ್ಕೋಡ್ರಿ" :=
  ⟨by decide, by decide, by decide⟩

/-- C3 amended: a single pass is idempotent on every input whose
normalized form is free of the table's active triggers — the
well-formedness condition of the claim (no rule's output contains another
rule's input) is not sufficient, because a replacement can create a
trigger occurrence spanning the boundary between its output and the
surrounding text, as the shipped table itself demonstrates. -/
theorem normalize_idempotent_of_trigger_free_result
    (table : List (String × String)) (x : String)
    (h : ∀ p ∈ table, p.1 ≠ p.2 →
      hasSubstrL (normalizeWith table x).toList p.1.toList = false) :
    normalizeWith table (normalizeWith table x) = normalizeWith table x := by
  unfold normalizeWith
  congr 1
  apply applyRules_id
  intro p hp hne
  obtain ⟨q, hq, hq2⟩ := List.mem_map.mp hp
  have hqne : q.1 ≠ q.2 := by
    intro he
    exact hne (by rw [← hq2, he])
  have := h q hq hqne
  rw [← hq2]
  exact this

/-- C3 witness: on the concrete sentence `"ಸೊಲ್ಪ ನೋಡ್ತಾ ಇರಿ"` the
normalized form is trigger-free, so normalizing twice equals normalizing
once. -/
theorem normalize_idempotent_witness :
    normalize_kannada (normalize_kannada "ಸೊಲ್ಪ ನೋಡ್ತಾ ಇರಿ") =
      normalize_kannada "ಸೊಲ್ಪ ನೋಡ್ತಾ ಇರಿ" :=
  normalize_idempotent_of_trigger_free_result _REPLACEMENTS
    "ಸೊಲ್ಪ ನೋಡ್ತಾ ಇರಿ" (by decide)

/-! ## Claim C9 — the frame property of `replace` and `normalize` -/

/-- The Boolean prefix test agrees with the existence of a completing
suffix. -/
theorem isPrefixL_iff (c t : List Char) :
    isPrefixL c t = true ↔ ∃ r, t = c ++ r := by
  induction c generalizing t with
  | nil =>
    simp [isPrefixL]
  | cons a as ih =>
    cases t with
    | nil =>
      simp [isPrefixL]
    | cons b bs =>
      simp only [isPrefixL, Bool.and_eq_true, decide_eq_true_eq, ih,
        List.cons_append, List.cons.injEq]
      constructor
      · rintro ⟨hab, r, hr⟩
        exact ⟨r, hab.symm, hr⟩
      · rintro ⟨r, hab, hr⟩
        exact ⟨hab.symm, r, hr⟩

/-- The chunk decomposition always produces at least one chunk. -/
theorem replChunksFuel_ne_nil (f : Nat) (t c : List Char) :
    replChunksFuel f t c ≠ [] := by
  match f, t with
  | 0, t => simp [replChunksFuel]
  | f + 1, [] => simp [replChunksFuel]
  | f + 1, a :: rest =>
    simp only [replChunksFuel]
    split
    · simp
    · split <;> simp

/-- `intercalate` over a two-or-more-element chunk list. -/
theorem intercalate_cons₂ (sep x y : List Char) (ys : List (List Char)) :
    List.intercalate sep (x :: y :: ys) = x ++ sep ++ List.intercalate sep (y :: ys) := by
  simp [List.intercalate, List.intersperse]

/-- `intercalate` over a single chunk. -/
theorem intercalate_one (sep x : List Char) :
    List.intercalate sep [x] = x := by
  simp [List.intercalate]

/-- Consing a character onto the first chunk conses it onto the
intercalation. -/
theorem intercalate_cons_head (sep u : List Char) (a : Char) (us : List (List Char)) :
    List.intercalate sep ((a :: u) :: us) = a :: List.intercalate sep (u :: us) := by
  cases us with
  | nil => rw [intercalate_one, intercalate_one]
  | cons v vs => rw [intercalate_cons₂, intercalate_cons₂]; rfl

/-- Joining the chunks with the pattern itself restores the original
text: the chunks are exactly the parts of the text outside the matched
occurrences. -/
theorem intercalate_replChunksFuel (f : Nat) :
    ∀ t c : List Char, t.length ≤ f → c ≠ [] →
      List.intercalate c (replChunksFuel f t c) = t := by
  induction f with
  | zero =>
    intro t c ht _
    have : t = [] := List.eq_nil_of_length_eq_zero (Nat.le_zero.mp ht)
    subst this
    rw [show replChunksFuel 0 [] c = [[]] from rfl, intercalate_one]
  | succ f ih =>
    intro t c ht hc
    cases t with
    | nil =>
      rw [show replChunksFuel (f + 1) [] c = [[]] from rfl, intercalate_one]
    | cons a rest =>
      simp only [replChunksFuel]
      by_cases hpre : (!c.isEmpty && isPrefixL c (a :: rest)) = true
      · rw [if_pos hpre]
        have hpre2 : isPrefixL c (a :: rest) = true := by
          simp only [Bool.and_eq_true] at hpre
          exact hpre.2
        obtain ⟨r, hr⟩ := (isPrefixL_iff c (a :: rest)).mp hpre2
        have hdrop : (a :: rest).drop c.length = r := by
          rw [hr]
          exact List.drop_left c r
        have hc1 : 1 ≤ c.length := by
          cases c with
          | nil => exact absurd rfl hc
          | cons x xs => simp
        have hlenr : r.length ≤ f := by
          have := congrArg List.length hr
          simp only [List.length_cons, List.length_append] at this
          simp only [List.length_cons] at ht
          omega
        rw [hdrop]
        obtain ⟨u, us, hus⟩ :=
          List.exists_cons_of_ne_nil (replChunksFuel_ne_nil f r c)
        rw [hus, intercalate_cons₂, ← hus, List.nil_append,
          ih r c hlenr hc, hr]
      · rw [if_neg hpre]
        obtain ⟨u, us, hus⟩ :=
          List.exists_cons_of_ne_nil (replChunksFuel_ne_nil f rest c)
        rw [hus, intercalate_cons_head, ← hus,
          ih rest c (by simpa using Nat.succ_le_succ_iff.mp ht) hc]

/-- The replacement result is the chunks joined with the replacement
string: `replace` rewrites exactly the matched occurrences and copies
every untouched chunk verbatim. -/
theorem pyReplaceFuel_eq_intercalate (f : Nat) :
    ∀ t c s : List Char, t.length ≤ f → c ≠ [] →
      pyReplaceFuel f t c s = List.intercalate s (replChunksFuel f t c) := by
  induction f with
  | zero =>
    intro t c s ht _
    have : t = [] := List.eq_nil_of_length_eq_zero (Nat.le_zero.mp ht)
    subst this
    rw [show replChunksFuel 0 [] c = [[]] from rfl, intercalate_one]
    rfl
  | succ f ih =>
    intro t c s ht hc
    cases t with
    | nil =>
      rw [show replChunksFuel (f + 1) [] c = [[]] from rfl, intercalate_one]
      rfl
    | cons a rest =>
      simp only [pyReplaceFuel, replChunksFuel]
      by_cases hpre : (!c.isEmpty && isPrefixL c (a :: rest)) = true
      · rw [if_pos hpre, if_pos hpre]
        have hpre2 : isPrefixL c (a :: rest) = true := by
          simp only [Bool.and_eq_true] at hpre
          exact hpre.2
        obtain ⟨r, hr⟩ := (isPrefixL_iff c (a :: rest)).mp hpre2
        have hdrop : (a :: rest).drop c.length = r := by
          rw [hr]
          exact List.drop_left c r
        have hc1 : 1 ≤ c.length := by
          cases c with
          | nil => exact absurd rfl hc
          | cons x xs => simp
        have hlenr : r.length ≤ f := by
          have := congrArg List.length hr
          simp only [List.length_cons, List.length_append] at this
          simp only [List.length_cons] at ht
          omega
        rw [hdrop]
        obtain ⟨u, us, hus⟩ :=
          List.exists_cons_of_ne_nil (replChunksFuel_ne_nil f r c)
        rw [hus, intercalate_cons₂, ← hus, List.nil_append,
          ih r c s hlenr hc]
      · rw [if_neg hpre, if_neg hpre]
        obtain ⟨u, us, hus⟩ :=
          List.exists_cons_of_ne_nil (replChunksFuel_ne_nil f rest c)
        rw [hus, intercalate_cons_head, ← hus,
          ih rest c s (by simpa using Nat.succ_le_succ_iff.mp ht) hc]

/-- C9: (1) for every nonempty pattern, the text decomposes into the
untouched chunks joined by the pattern, and `replace` is exactly the same
chunks joined by the replacement string — so every maximal region outside
the matched occurrences appears verbatim (hence with unchanged character
count) in the output; and (2) a string containing no active trigger of
the shipped table is returned by `normalize_kannada` identically. -/
theorem normalize_frame_property :
    (∀ c s t : List Char, c ≠ [] →
      t = List.intercalate c (replChunksL t c) ∧
      pyReplaceL t c s = List.intercalate s (replChunksL t c)) ∧
    (∀ x : String, (∀ p ∈ _REPLACEMENTS, p.1 ≠ p.2 →
        hasSubstrL x.toList p.1.toList = false) →
      normalize_kannada x = x) := by
  constructor
  · intro c s t hc
    exact ⟨(intercalate_replChunksFuel t.length t c le_rfl hc).symm,
           pyReplaceFuel_eq_intercalate t.length t c s le_rfl hc⟩
  · intro x hx
    have hmap : ∀ p ∈ List.map (fun p => (p.1.toList, p.2.toList)) _REPLACEMENTS,
        p.1 ≠ p.2 → hasSubstrL x.toList p.1 = false := by
      intro p hp hne
      obtain ⟨q, hq, hq2⟩ := List.mem_map.mp hp
      have hqne : q.1 ≠ q.2 := by
        intro he
        exact hne (by rw [← hq2, he])
      have := hx q hq hqne
      rw [← hq2]
      exact this
    unfold normalize_kannada normalizeWith
    rw [applyRules_id hmap]
    rfl

/-- C9 witness: a concrete decomposition — `"zaby"` with pattern `"ab"`
splits into chunks rejoined by the pattern — and a concrete trigger-free
string fixed by `normalize_kannada`. -/
theorem normalize_frame_property_witness :
    "zaby".toList = List.intercalate "ab".toList (replChunksL "zaby".toList "ab".toList) ∧
    normalize_kannada "ಹಾಯ್" = "ಹಾಯ್" :=
  ⟨(normalize_frame_property.1 "ab".toList "X".toList "zaby".toList (by decide)).1,
   normalize_frame_property.2 "ಹಾಯ್" (by decide)⟩

/-! ## Claim C10 — `text_kn_raw` is the trimmed transcript text -/

/-- Whether a string carries leading or trailing whitespace. -/
def hasEdgeWS (s : String) : Bool :=
  (s.toList.head?.elim false isPySpace) || (s.toList.getLast?.elim false isPySpace)

/-- Stripping is the identity exactly on lists with no whitespace at
either end. -/
theorem pyStripL_eq_self_iff (l : List Char) :
    pyStripL l = l ↔
      (l.head?.elim false isPySpace = false ∧
       l.getLast?.elim false isPySpace = false) := by
  constructor
  · intro heq
    have hlen : (pyStripL l).length = l.length := by rw [heq]
    constructor
    · by_contra hh
      have hh' : l.head?.elim false isPySpace = true := by
        cases hb : l.head?.elim false isPySpace
        · exact absurd hb hh
        · rfl
      cases l with
      | nil => simp [Option.elim] at hh'
      | cons a rest =>
        have ha : isPySpace a = true := by simpa [Option.elim] using hh'
        have hdw : (a :: rest).dropWhile isPySpace = rest.dropWhile isPySpace :=
          List.dropWhile_cons_of_pos ha
        have hle1 : (pyStripL (a :: rest)).length ≤
            ((a :: rest).dropWhile isPySpace).length := by
          unfold pyStripL
          rw [List.length_reverse]
          calc ((((a :: rest).dropWhile isPySpace).reverse.dropWhile isPySpace)).length
              ≤ (((a :: rest).dropWhile isPySpace).reverse).length :=
                (List.dropWhile_suffix _).length_le
            _ = (((a :: rest).dropWhile isPySpace)).length := List.length_reverse _
        have hle2 : ((a :: rest).dropWhile isPySpace).length ≤ rest.length := by
          rw [hdw]
          exact (List.dropWhile_suffix _).length_le
        simp only [List.length_cons] at hlen
        omega
    · by_contra hh
      have hh' : l.getLast?.elim false isPySpace = true := by
        cases hb : l.getLast?.elim false isPySpace
        · exact absurd hb hh
        · rfl
      cases l with
      | nil => simp [Option.elim] at hh'
      | cons a rest =>
        by_cases ha : isPySpace a = true
        · have hdw : (a :: rest).dropWhile isPySpace = rest.dropWhile isPySpace :=
            List.dropWhile_cons_of_pos ha
          have hle1 : (pyStripL (a :: rest)).length ≤
              ((a :: rest).dropWhile isPySpace).length := by
            unfold pyStripL
            rw [List.length_reverse]
            calc ((((a :: rest).dropWhile isPySpace).reverse.dropWhile isPySpace)).length
                ≤ (((a :: rest).dropWhile isPySpace).reverse).length :=
                  (List.dropWhile_suffix _).length_le
              _ = (((a :: rest).dropWhile isPySpace)).length := List.length_reverse _
          have hle2 : ((a :: rest).dropWhile isPySpace).length ≤ rest.length := by
            rw [hdw]
            exact (List.dropWhile_suffix _).length_le
          simp only [List.length_cons] at hlen
          omega
        · have hdw : (a :: rest).dropWhile isPySpace = a :: rest :=
            List.dropWhile_cons_of_neg (by simpa using ha)
          cases hrev : (a :: rest).reverse with
          | nil => exact absurd (List.reverse_eq_nil_iff.mp hrev) (by simp)
          | cons b bs =>
            have hb : isPySpace b = true := by
              have hhead : (a :: rest).reverse.head? = (a :: rest).getLast? :=
                List.head?_reverse _
              rw [hrev] at hhead
              have : (a :: rest).getLast? = some b := hhead.symm
              simpa [this, Option.elim] using hh'
            have hlt : (pyStripL (a :: rest)).length < (a :: rest).length := by
              unfold pyStripL
              rw [hdw, hrev, List.dropWhile_cons_of_pos hb, List.length_reverse]
              have h1 : (bs.dropWhile isPySpace).length ≤ bs.length :=
                (List.dropWhile_suffix _).length_le
              have h2 : (b :: bs).length = (a :: rest).length := by
                rw [← hrev, List.length_reverse]
              simp only [List.length_cons] at h2 ⊢
              omega
            omega
  · rintro ⟨h1, h2⟩
    cases l with
    | nil => rfl
    | cons a rest =>
      have ha : isPySpace a = false := by simpa [Option.elim] using h1
      unfold pyStripL
      rw [List.dropWhile_cons_of_neg (by simp [ha])]
      cases hrev : (a :: rest).reverse with
      | nil => exact absurd (List.reverse_eq_nil_iff.mp hrev) (by simp)
      | cons b bs =>
        have hb : isPySpace b = false := by
          have hhead : (a :: rest).reverse.head? = (a :: rest).getLast? :=
            List.head?_reverse _
          rw [hrev] at hhead
          have : (a :: rest).getLast? = some b := hhead.symm
          simpa [this, Option.elim] using h2
        rw [List.dropWhile_cons_of_neg (by simp [hb]), ← hrev,
          List.reverse_reverse]

/-- `pyStrip` is the identity exactly on strings without leading or
trailing whitespace. -/
theorem pyStrip_eq_self_iff (s : String) :
    pyStrip s = s ↔ hasEdgeWS s = false := by
  unfold hasEdgeWS
  rw [Bool.or_eq_false_iff, ← pyStripL_eq_self_iff]
  constructor
  · intro h
    exact congrArg String.data h
  · intro h
    exact (congrArg String.mk h).trans rfl

/-- C10: each output segment of `translate_transcript` stores as
`text_kn_raw` the stripped input text (not the verbatim transcript text)
and as `text_kn_clean` the normalization of that stripped text; hence the
stored raw text differs from the transcript's text exactly when the
latter carries leading or trailing whitespace. -/
theorem raw_text_is_trimmed_transcript_text
    (engine : String → String → String → String) (segments : List RawSegment)
    (i : Nat) (h1 : i < (translate_transcript engine segments).length)
    (h2 : i < segments.length) :
    ((translate_transcript engine segments).get ⟨i, h1⟩).text_kn_raw =
      pyStrip ((segments.get ⟨i, h2⟩).text) ∧
    ((translate_transcript engine segments).get ⟨i, h1⟩).text_kn_clean =
      normalize_kannada (pyStrip ((segments.get ⟨i, h2⟩).text)) ∧
    (((translate_transcript engine segments).get ⟨i, h1⟩).text_kn_raw ≠
        (segments.get ⟨i, h2⟩).text ↔
      hasEdgeWS ((segments.get ⟨i, h2⟩).text) = true) := by
  have hget : ((translate_transcript engine segments).get ⟨i, h1⟩).text_kn_raw =
      pyStrip ((segments.get ⟨i, h2⟩).text) := by
    unfold translate_transcript
    rw [List.get_map]
  have hget2 : ((translate_transcript engine segments).get ⟨i, h1⟩).text_kn_clean =
      normalize_kannada (pyStrip ((segments.get ⟨i, h2⟩).text)) := by
    unfold translate_transcript
    rw [List.get_map]
  refine ⟨hget, hget2, ?_⟩
  rw [hget]
  constructor
  · intro hne
    by_contra hfalse
    have hf : hasEdgeWS ((segments.get ⟨i, h2⟩).text) = false := by
      cases hb : hasEdgeWS ((segments.get ⟨i, h2⟩).text)
      · rfl
      · exact absurd hb hfalse
    exact hne ((pyStrip_eq_self_iff _).mpr hf)
  · intro htrue heq
    have := (pyStrip_eq_self_iff _).mp heq
    rw [this] at htrue
    exact Bool.false_ne_true htrue

/-- C10 witness: a concrete segment whose text carries edge whitespace —
the stored raw text is the stripped form, which differs from the
verbatim input text. -/
theorem raw_text_is_trimmed_witness :
    ((translate_transcript (fun _ _ _ => "")
        [{ start := 0, «end» := 1, text := " ಹಾಯ್ " }]).get
        ⟨0, by decide⟩).text_kn_raw = "ಹಾಯ್" ∧
    hasEdgeWS " ಹಾಯ್ " = true :=
  ⟨((raw_text_is_trimmed_transcript_text (fun _ _ _ => "")
      [{ start := 0, «end» := 1, text := " ಹಾಯ್ " }] 0
      (by decide) (by decide)).1).trans (by decide),
   by decide⟩

/-! ## Claim C7 — a concrete end-to-end normalization -/

/-- C7: on the concrete input `"ಸೊಲ್ಪ ನೋಡ್ತಾ ಇರಿ"`, `normalize_kannada`
returns exactly `"ಸ್ವಲ್ಪ ನೋಡುತ್ತಾ ಇರಿ"` — the rules `ಸೊಲ್ಪ → ಸ್ವಲ್ಪ` and
`ನೋಡ್ತಾ → ನೋಡುತ್ತಾ` both fire and no other rule of the table alters the
result (the exact-equality verdict covers all 21 rules at once). -/
theorem normalize_concrete_sentence :
    normalize_kannada "ಸೊಲ್ಪ ನೋಡ್ತಾ ಇರಿ" = "ಸ್ವಲ್ಪ ನೋಡುತ್ತಾ ಇರಿ" := by
  decide
